import Mathlib

/-!
# Verification of `h5py/_hl/selections.py`

A shallow embedding of the index-translation and selection-composition
algebra of `h5py`'s high-level selection module, together with theorems
settling the specification claims about it.

Python integers are modelled by `Int` (they are arbitrary precision);
Python's floor division `//` is `Int.fdiv`.  Fallible functions return
`Except SelErr`, where `SelErr` is a structured rendering of the
`ValueError` / `TypeError` / `ZeroDivisionError` exceptions the source
raises, carrying the parameters that appear in the message.
-/

deriving instance DecidableEq for Except

namespace H5PySel

/-- Modelled from the spec: `product` (imported in the source from the
`base` module, which is not part of the translated sources) is the
product of a shape tuple's entries. -/
def product (xs : List Int) : Int := xs.foldr (· * ·) 1

/-- Structured rendering of the exceptions raised by `selections.py`
(and by the Python builtins it calls). -/
inductive SelErr where
  /-- `ValueError("slice step cannot be zero")`, raised by `slice.indices`. -/
  | sliceStepZero : SelErr
  /-- `ValueError("Step must be >= 1 (got %d)")` in `_translate_slice`. -/
  | invalidSliceStep (step : Int) : SelErr
  /-- `ValueError("Index (%s) out of range (0-%s)")` in `_translate_int`. -/
  | indexOutOfRange (exp length : Int) : SelErr
  /-- `ValueError("No full blocks can be selected using ...")` in
  `MultiBlockSlice.indices` when `count` is omitted. -/
  | noFullBlocks (start stride block length : Int) : SelErr
  /-- `ValueError("... range (%s - %s) extends beyond maximum index (%s)")`
  in `MultiBlockSlice.indices`. -/
  | multiBlockOutOfRange (start stride count block length : Int) : SelErr
  /-- `ValueError` in `MultiBlockSlice.__init__`. -/
  | invalidMultiBlockConstruction : SelErr
  /-- `ValueError("Only one ellipsis may be used.")` in `_expand_ellipsis`. -/
  | tooManyEllipses : SelErr
  /-- `TypeError("Argument sequence too long")` in `_expand_ellipsis`. -/
  | tooManyIndices : SelErr
  /-- `TypeError("Illegal index ...")` in `_handle_simple`. -/
  | illegalIndex : SelErr
  /-- `TypeError("Invalid index for scalar dataset ...")` in
  `SimpleSelection.__getitem__`. -/
  | invalidScalarIndex : SelErr
  /-- `TypeError("Indexing elements must be in increasing order")` in
  `FancySelection.__getitem__`. -/
  | nonMonotonic : SelErr
  /-- `TypeError("Only one indexing vector or array is currently allowed ...")`. -/
  | tooManySequences : SelErr
  /-- `TypeError("Advanced selection inappropriate")`. -/
  | noSequence : SelErr
  /-- `TypeError("All sequence arguments must have the same length ...")`. -/
  | lengthMismatch : SelErr
  /-- `TypeError("Can't broadcast %s -> %s")` in `SimpleSelection`. -/
  | broadcastIncompatible : SelErr
  /-- `TypeError("Can't broadcast %s to scalar")` in `SimpleSelection.broadcast`. -/
  | broadcastScalar : SelErr
  /-- `TypeError("Broadcasting is not supported for point-wise selections")`
  in the base `Selection` class. -/
  | pointBroadcast : SelErr
  /-- Python `ZeroDivisionError` from `//` with zero divisor. -/
  | zeroDivision : SelErr
deriving DecidableEq, Repr

/-- A Python `slice` literal: each of start/stop/step may be `None`. -/
structure Slice where
  start : Option Int
  stop : Option Int
  step : Option Int
deriving DecidableEq, Repr

/-- Modelled from Python's builtin `slice.indices(length)` (CPython
`PySlice_GetIndicesEx`): clamp start/stop to the legal window for the
sign of the step, supplying defaults for omitted fields. -/
def Slice.indices (e : Slice) (length : Nat) : Except SelErr (Int × Int × Int) :=
  let L : Int := length
  let step := e.step.getD 1
  if step = 0 then .error .sliceStepZero
  else
    let lower : Int := if step < 0 then -1 else 0
    let upper : Int := if step < 0 then L - 1 else L
    let start :=
      match e.start with
      | none => if step < 0 then upper else lower
      | some v => if v < 0 then max (v + L) lower else min v upper
    let stop :=
      match e.stop with
      | none => if step < 0 then lower else upper
      | some v => if v < 0 then max (v + L) lower else min v upper
    .ok (start, stop, step)

/-- `_translate_slice(exp, length)`: translate a slice into a
`(start, count, step)` triple for hyperslab selection. -/
def translateSlice (e : Slice) (length : Nat) : Except SelErr (Int × Int × Int) := do
  let (start, stop, step) ← e.indices length
  if step < 1 then
    .error (.invalidSliceStep step)
  else if stop < start then
    -- list/tuple and numpy consider stop < start to be an empty selection
    .ok (0, 0, 1)
  else
    .ok (start, 1 + (stop - start - 1).fdiv step, step)

/-- `_translate_int(exp, length)`: translate an integer index into a
`(start, count, step)` triple, normalizing a negative index. -/
def translateInt (exp : Int) (length : Nat) : Except SelErr (Int × Int × Int) :=
  let e := if exp < 0 then exp + length else exp
  if 0 ≤ e ∧ e < length then .ok (e, 1, 1)
  else .error (.indexOutOfRange e length)

/-- The `MultiBlockSlice` value type: `start`, `stride`, optional `count`,
`block`. -/
structure MultiBlockSlice where
  start : Int
  stride : Int
  count : Option Int
  block : Int
deriving DecidableEq, Repr

/-- The validation performed by `MultiBlockSlice.__init__`: nonnegative
start, positive stride/count/block, and non-overlapping blocks. -/
def MultiBlockSlice.Valid (m : MultiBlockSlice) : Prop :=
  0 ≤ m.start ∧ 1 ≤ m.stride ∧ (∀ c ∈ m.count, 1 ≤ c) ∧
    1 ≤ m.block ∧ m.block ≤ m.stride

instance (m : MultiBlockSlice) : Decidable m.Valid := by
  unfold MultiBlockSlice.Valid; infer_instance

/-- The trailing end-index validation of `MultiBlockSlice.indices`:
raise if the final block would extend past the axis. -/
def MultiBlockSlice.checkEnd (m : MultiBlockSlice) (L count : Int) :
    Except SelErr (Int × Int × Int × Int) :=
  let endIndex := m.start + m.block + (count - 1) * m.stride - 1
  if L ≤ endIndex then
    .error (.multiBlockOutOfRange m.start m.stride count m.block L)
  else
    .ok (m.start, count, m.stride, m.block)

/-- `MultiBlockSlice.indices(length)`: compute and validate
`(start, count, stride, block)` for the given axis length. -/
def MultiBlockSlice.indices (m : MultiBlockSlice) (length : Nat) :
    Except SelErr (Int × Int × Int × Int) :=
  let L : Int := length
  match m.count with
  | none =>
    -- Select as many full blocks as possible without exceeding extent
    let c := (L - m.start - m.block).fdiv m.stride + 1
    if c < 1 then .error (.noFullBlocks m.start m.stride m.block L)
    else m.checkEnd L c
  | some c => m.checkEnd L c

/-- One positional argument of an indexing expression, as classified by
the source's runtime type tests: an integer, a slice, a
`MultiBlockSlice`, `Ellipsis`, a list of integers, a 1-D boolean mask,
or the empty tuple `()`. -/
inductive IndexArg where
  | int (i : Int)
  | slc (s : Slice)
  | mbs (m : MultiBlockSlice)
  | ellipsis
  | seq (xs : List Int)
  | boolmask (bs : List Bool)
  | emptyTuple
deriving DecidableEq, Repr

/-- `slice(None, None, None)`, the full-range slice. -/
def fullSlice : IndexArg := .slc ⟨none, none, none⟩

/-- The `arg is Ellipsis` test. -/
def IndexArg.isEllipsisArg : IndexArg → Bool
  | .ellipsis => true
  | _ => false

/-- `_expand_ellipsis(args, rank)`: expand ellipsis objects and fill in
missing axes.  A negative Python repetition count produces the empty
tuple, which `Nat` truncated subtraction reproduces. -/
def expandEllipsis (args : List IndexArg) (rank : Nat) :
    Except SelErr (List IndexArg) :=
  let nEl := args.countP (·.isEllipsisArg)
  if 1 < nEl then .error .tooManyEllipses
  else
    let args' := if nEl = 0 ∧ args.length ≠ rank then args ++ [.ellipsis] else args
    let nArgs := args'.length
    let finalArgs := args'.flatMap fun a =>
      if a.isEllipsisArg then List.replicate (rank + 1 - nArgs) fullSlice else [a]
    if rank < finalArgs.length then .error .tooManyIndices
    else .ok finalArgs

/-- The per-axis branch of `_handle_simple`'s loop body: dispatch on the
runtime type of the argument.  Arguments on which Python's `int()`
raises `TypeError` (lists, masks, tuples, `Ellipsis`) produce the
"Illegal index" error. -/
def handleSimpleArg (arg : IndexArg) (length : Nat) :
    Except SelErr (Int × Int × Int × Int × Bool) :=
  match arg with
  | .slc e => (translateSlice e length).map fun (s, c, st) => (s, c, st, 1, false)
  | .mbs m => (m.indices length).map fun (s, c, st, b) => (s, c, st, b, false)
  | .int i => (translateInt i length).map fun (s, c, st) => (s, c, st, 1, true)
  | _ => .error .illegalIndex

/-- The loop of `_handle_simple` over `zip(args, shape)`, accumulating
the five per-axis tuples. -/
def handleSimpleAux : List (IndexArg × Nat) →
    Except SelErr (List Int × List Int × List Int × List Int × List Bool)
  | [] => .ok ([], [], [], [], [])
  | (arg, length) :: rest => do
    let (s, c, st, b, sc) ← handleSimpleArg arg length
    let (ss, cs, sts, bs, scs) ← handleSimpleAux rest
    .ok (s :: ss, c :: cs, st :: sts, b :: bs, sc :: scs)

/-- `_handle_simple(shape, args)`: process a "simple" selection tuple of
integers, slices and `MultiBlockSlice`s into per-axis
`(start, count, stride, block, scalar)` tuples. -/
def handleSimple (shape : List Nat) (args : List IndexArg) :
    Except SelErr (List Int × List Int × List Int × List Int × List Bool) := do
  let expanded ← expandEllipsis args shape.length
  handleSimpleAux (expanded.zip shape)

/-- The state of a `SimpleSelection`: the dataspace shape together with
the committed `_sel = (start, count, stride, scalar)`, `_block_shape`
and `_array_shape` fields. -/
structure SimpleSelection where
  shape : List Nat
  start : List Int
  count : List Int
  stride : List Int
  scalar : List Bool
  blockShape : List Int
  arrayShape : List Int
deriving DecidableEq, Repr

/-- `SimpleSelection.__init__`: a fresh selection over `shape` selects
the full extent. -/
def simpleInit (shape : List Nat) : SimpleSelection :=
  let rank := shape.length
  { shape := shape
    start := List.replicate rank 0
    count := shape.map Int.ofNat
    stride := List.replicate rank 1
    scalar := List.replicate rank false
    blockShape := List.replicate rank 1
    arrayShape := shape.map Int.ofNat }

/-- `SimpleSelection.mshape`: elementwise `count * block`. -/
def SimpleSelection.mshape (st : SimpleSelection) : List Int :=
  List.zipWith (· * ·) st.count st.blockShape

/-- `SimpleSelection.__getitem__`.  For a rank-0 extent only an index
whose first entry is `Ellipsis` or `()` (or the empty index) is
accepted, and it selects the single point; otherwise the args are
processed by `_handle_simple` and committed, with `array_shape`
dropping scalar axes. -/
def SimpleSelection.getitem (st : SimpleSelection) (args : List IndexArg) :
    Except SelErr SimpleSelection :=
  if st.shape = [] then
    match args with
    | [] => .ok st
    | a :: _ =>
      if a = .ellipsis ∨ a = .emptyTuple then .ok st
      else .error .invalidScalarIndex
  else do
    let (start, count, stride, block, scalar) ← handleSimple st.shape args
    let length := List.zipWith (· * ·) count block
    .ok { st with
          start := start, count := count, stride := stride, scalar := scalar,
          blockShape := block,
          arrayShape := ((length.zip scalar).filter (fun p => ¬ p.2)).map (·.1) }

/-- The loop of `SimpleSelection.expand_shape`, walking the selection's
axes from last to first.  The first list holds the per-axis
`(mshape[-idx], block_shape[-idx], scalar[-idx])` triples in walk
order; the second is the reversed `remaining_src_dims`, whose head is
the next dimension to pop.  On exhausting the axes, any unconsumed
source dimension `> 1` is an error. -/
def expandShapeAux : List (Int × Int × Bool) → List Int →
    Except SelErr (List Int)
  | [], rem =>
    if rem.any (fun n => 1 < n) then .error .broadcastIncompatible
    else .ok []
  | (m, b, sc) :: axes, rem =>
    match rem with
    | [] => (expandShapeAux axes []).map (1 :: ·)
    | t :: rem' =>
      if sc then (expandShapeAux axes (t :: rem')).map (1 :: ·)
      else if t = 1 ∨ m = t ∨ b = t then (expandShapeAux axes rem').map (t :: ·)
      else .error .broadcastIncompatible

/-- `SimpleSelection.expand_shape(source_shape)`: match the dimensions
of an array to be broadcast to the selection.  The walk builds `eshape`
backwards, so the result is reversed at the end. -/
def SimpleSelection.expandShape (st : SimpleSelection) (sourceShape : List Int) :
    Except SelErr (List Int) :=
  let axes := st.mshape.reverse.zip (st.blockShape.reverse.zip st.scalar.reverse)
  (expandShapeAux axes sourceShape.reverse).map (·.reverse)

/-- Modelled from `np.unravel_index(idx, dims)` in C order: peel
coordinates off from the last (fastest-varying) axis, returning the
coordinate list for the processed dims together with the remaining
quotient. -/
def unravelAux : List Int → Int → List Int × Int
  | [], i => ([], i)
  | d :: ds, i =>
    let (cs, rem) := unravelAux ds i
    (rem.fmod d :: cs, rem.fdiv d)

/-- Modelled from `np.unravel_index(idx, dims)` in C order (last axis
varying fastest). -/
def unravelIndex (dims : List Int) (i : Int) : List Int :=
  (unravelAux dims i).1

/-- One value yielded by `SimpleSelection.broadcast`: either the
committed dataspace itself (`self._id`), the whole rank-0 extent, or a
copied descriptor re-described as one chunk-shaped block at the
selection's start/stride and repositioned to each chunk offset. -/
inductive BroadcastResult where
  /-- Rank-0 extent: `select_all` then yield `self._id` once. -/
  | scalarAll
  /-- `nchunks == 1`: yield `self._id` once, unmodified. -/
  | original
  /-- The copied descriptor, selected as
  `select_hyperslab((0,)*rank, (1,)*rank, step, chunk_shape)` and
  repositioned by `offset_simple` to each offset in turn. -/
  | chunked (chunkShape step : List Int) (offsets : List (List Int))
deriving DecidableEq, Repr

/-- `SimpleSelection.broadcast(source_shape)`: the sequence of target
dataspaces yielded for broadcasting, abstracted as a `BroadcastResult`.
Python's `//` raises `ZeroDivisionError` on a zero divisor, which the
explicit check reproduces. -/
def SimpleSelection.broadcast (st : SimpleSelection) (sourceShape : List Int) :
    Except SelErr BroadcastResult :=
  if st.shape = [] then
    if product sourceShape ≠ 1 then .error .broadcastScalar
    else .ok .scalarAll
  else do
    let chunkShape ← st.expandShape sourceShape
    if chunkShape.any (· = 0) then .error .zeroDivision
    else
      let chunks := List.zipWith Int.fdiv st.mshape chunkShape
      let nchunks := product chunks
      if nchunks = 1 then .ok .original
      else
        .ok (.chunked chunkShape st.stride
          ((List.range nchunks.toNat).map fun (idx : Nat) =>
            List.zipWith (· + ·) st.start
              (List.zipWith (· * ·) (unravelIndex chunks (idx : Int)) st.stride)))

/-- Positions of the true entries of a 1-D boolean mask
(`arg.nonzero()[0]`). -/
def nonzeroPositions (bs : List Bool) : List Int :=
  (List.range bs.length).filterMap fun i =>
    if bs.getD i false then some (i : Int) else none

/-- The `list(arg)` conversion attempted on a non-slice argument inside
`FancySelection.__getitem__`: sequences convert to themselves, 1-D
boolean masks to their nonzero positions, the empty tuple to the empty
list; `int()`-like and non-iterable arguments raise `TypeError` and are
skipped (`none`). -/
def IndexArg.asSequence : IndexArg → Option (List Int)
  | .seq xs => some xs
  | .boolmask bs => some (nonzeroPositions bs)
  | .emptyTuple => some []
  | _ => none

/-- The per-argument monotonicity test of `FancySelection.__getitem__`:
`any(fst >= snd for fst, snd in zip(list_arg[:-1], list_arg[1:]))`. -/
def hasNonMonotonicPair (xs : List Int) : Bool :=
  (xs.zip xs.tail).any fun p => p.2 ≤ p.1

/-- The first loop of `FancySelection.__getitem__`: build the
`(position, sequence)` pairs, raising on the first sequence whose
entries are not strictly increasing. -/
def collectSequenceArgs : Nat → List IndexArg →
    Except SelErr (List (Nat × List Int))
  | _, [] => .ok []
  | i, a :: rest =>
    match a.asSequence with
    | none => collectSequenceArgs (i + 1) rest
    | some xs =>
      if hasNonMonotonicPair xs then .error .nonMonotonic
      else (collectSequenceArgs (i + 1) rest).map ((i, xs) :: ·)

/-- The state of a `FancySelection`: the dataspace shape, the committed
`_mshape` and `_array_shape`, and the list of hyperslab descriptors
OR-ed into the committed region. -/
structure FancySelection where
  shape : List Nat
  mshape : List Int
  arrayShape : List Int
  slabs : List (List Int × List Int × List Int × List Int)
deriving DecidableEq, Repr

/-- `FancySelection.__init__`. -/
def fancyInit (shape : List Nat) : FancySelection :=
  { shape := shape
    mshape := shape.map Int.ofNat
    arrayShape := shape.map Int.ofNat
    slabs := [] }

/-- The `argvector` construction of `FancySelection.__getitem__`: one
simple-selection argument list per sequence entry, the sequence
position replaced by the entry; an empty sequence is translated to the
empty slice `0:0` to get the correct shape. -/
def fancyArgVector (args : List IndexArg) (pos : Nat) (xs : List Int) :
    List (List IndexArg) :=
  if 0 < xs.length then
    xs.map fun v => args.set pos (.int v)
  else
    [args.set pos (.slc ⟨some 0, some 0, none⟩)]

/-- The `mshape` adjustment loop of `FancySelection.__getitem__`: start
from the last vector's counts, force the sequence axis to the sequence
length, and mark scalar axes `-1`. -/
def fancyMshapeAdj (pos : Nat) (xsLen : Nat) (count : List Int)
    (scalar : List Bool) : List Int :=
  (List.range count.length).map fun idx =>
    if idx = pos then (xsLen : Int)
    else if scalar.getD idx false then -1
    else count.getD idx 0

/-- The committed state at the end of `FancySelection.__getitem__`:
`_mshape` takes absolute values (turning `-1` markers back to 1) and
`_array_shape` drops the negative (scalar) entries. -/
def fancyCommit (st : FancySelection) (pos : Nat) (xs : List Int)
    (results : List (List Int × List Int × List Int × List Int × List Bool)) :
    FancySelection :=
  let (_, count, _, _, scalar) := results.getLastD ([], [], [], [], [])
  let mshapeAdj := fancyMshapeAdj pos xs.length count scalar
  { st with
    mshape := mshapeAdj.map (fun x => |x|)
    arrayShape := mshapeAdj.filter (fun x => 0 ≤ x)
    slabs := results.map fun r => (r.1, r.2.1, r.2.2.1, r.2.2.2.1) }

/-- The tail of `FancySelection.__getitem__` after the sequence
arguments have been collected: exactly one sequence argument is
required (with the vacuous same-length check of the source), then every
vector is translated by `_handle_simple` and OR-ed into the committed
region. -/
def fancyFinish (st : FancySelection) (args : List IndexArg)
    (seqargs : List (Nat × List Int)) : Except SelErr FancySelection :=
  if 1 < seqargs.length then .error .tooManySequences
  else
    match seqargs with
    | [] => .error .noSequence
    | (pos, xs) :: _ =>
      if ¬ seqargs.all (·.2.length = xs.length) then .error .lengthMismatch
      else
        ((fancyArgVector args pos xs).mapM fun v => handleSimple st.shape v)
          >>= fun results => .ok (fancyCommit st pos xs results)

/-- `FancySelection.__getitem__`: expand ellipses, collect the single
increasing sequence argument, expand it into a vector of simple
selections (an empty sequence becoming the empty slice `0:0`), OR them
all together, and derive `_mshape` / `_array_shape` from the last
vector's counts with the sequence axis forced to the sequence length
and scalar axes marked `-1`. -/
def FancySelection.getitem (st : FancySelection) (args : List IndexArg) :
    Except SelErr FancySelection := do
  let args ← expandEllipsis args st.shape.length
  let seqargs ← collectSequenceArgs 0 args
  fancyFinish st args seqargs

/-- `Selection.broadcast(source_shape)` of the base (pass-through)
class, which yields the committed dataspace `self._id` exactly once.
The selected-point count `nselect` is the engine's
`get_select_npoints()` query, passed here as a parameter. -/
def baseBroadcast (nselect : Int) (sourceShape : List Int) :
    Except SelErr (List Unit) :=
  if product sourceShape ≠ nselect then .error .pointBroadcast
  else .ok [()]

/-- Modelled from the spec: the engine's hyperslab membership test.  A
point lies in the (stride-1, block-1) hyperslab `(start, count)` iff it
lies in the half-open box `[start, start + count)` on every axis. -/
def inHyperslabBlock (start count p : List Int) : Bool :=
  (p.zip (start.zip count)).all fun x => x.2.1 ≤ x.1 ∧ x.1 < x.2.1 + x.2.2

/-- Modelled from the spec: the engine's
`select_hyperslab(start, count, op=SELECT_NOTB)` primitive on a
selection held as a list of distinct points — remove every selected
point inside the hyperslab. -/
def selectNotB (pts : List (List Int)) (start count : List Int) :
    List (List Int) :=
  pts.filter fun p => ¬ inHyperslabBlock start count p

/-- The per-axis masking counts of `guess_shape`'s hyperslab branch:
`get_n_axis` masks off everything past the first coordinate plane of
the axis and divides the total count by what is left over.  The
bounding box is the engine's `get_select_bounds()`, modelled from the
spec as per-axis min/max over the selected points. -/
def axisCounts (rank : Nat) (pts : List (List Int)) : List Int :=
  let N : Int := pts.length
  let bottom := (List.range rank).map fun a =>
    ((pts.map fun p => p.getD a 0).min?).getD 0
  let top := (List.range rank).map fun a =>
    ((pts.map fun p => p.getD a 0).max?).getD 0
  let boxshape := List.zipWith (fun t b => t - b + 1) top bottom
  (List.range rank).map fun a =>
    if boxshape.getD a 0 = 1 then 1
    else
      let start := bottom.set a (bottom.getD a 0 + 1)
      let count := boxshape.set a (boxshape.getD a 0 - 1)
      let nLeftover : Int := (selectNotB pts start count).length
      N.fdiv nLeftover

/-- The hyperslab branch of `guess_shape(sid)` (from the comment
`We have a hyperslab-based selection` onward), over a rank-`rank`
simple dataspace whose committed selection is the set of points `pts`
(engine state modelled from the spec).  If the per-axis masking counts
do not multiply to `N`, multiple hyperslab selections are in effect and
the flat 1-D shape is returned. -/
def guessShapeHyperslab (rank : Nat) (pts : List (List Int)) : List Int :=
  let N : Int := pts.length
  if pts.length = 0 then List.replicate rank 0
  else
    let shape := axisCounts rank pts
    if product shape ≠ N then [N] else shape

/-- The multi-indices of the grid `dims`, enumerated with the last axis
varying fastest (the order of `np.unravel_index` applied to
`0, 1, ...`), written as a direct recursive enumeration. -/
def gridIndices : List Int → List (List Int)
  | [] => [[]]
  | d :: ds => (List.range d.toNat).flatMap fun q =>
      (gridIndices ds).map ((q : Int) :: ·)

/-- The set of points of a rectangular block: `start + i` for every
multi-index `i` of the grid `count`. -/
def blockPoints (start count : List Int) : List (List Int) :=
  (gridIndices count).map (List.zipWith (· + ·) start)

/-- The broadcast-shape walk as the specification words it: "walk axes
of the selection from last to first.  A scalar axis consumes nothing
and inserts a synthetic size-1 axis.  A non-scalar axis pops the last
remaining dimension of `source_shape` (or uses 1 if source is
exhausted); the popped value is legal iff it equals 1, equals the full
axis span, or equals the per-block length.  Any unconsumed leading
source dimensions with size > 1 are also an error."  Inputs are in the
same reversed (walk-order) form as `expandShapeAux`. -/
def specExpandShapeAux : List (Int × Int × Bool) → List Int →
    Except SelErr (List Int)
  | [], rem =>
    if rem.any (fun n => 1 < n) then .error .broadcastIncompatible
    else .ok []
  | (m, b, sc) :: axes, rem =>
    if sc then (specExpandShapeAux axes rem).map (1 :: ·)
    else
      match rem with
      | [] => (specExpandShapeAux axes []).map (1 :: ·)
      | t :: rem' =>
        if t = 1 ∨ t = m ∨ t = b then (specExpandShapeAux axes rem').map (t :: ·)
        else .error .broadcastIncompatible

/-- `expand_shape` as the specification describes it, for comparison
with the source translation `SimpleSelection.expandShape`. -/
def SimpleSelection.specExpandShape (st : SimpleSelection)
    (sourceShape : List Int) : Except SelErr (List Int) :=
  let axes := st.mshape.reverse.zip (st.blockShape.reverse.zip st.scalar.reverse)
  (specExpandShapeAux axes sourceShape.reverse).map (·.reverse)

/-! ## Theorems -/

/-- **C1** (counterexample).  `_translate_slice` does *not* return the
empty region `(0, 0, 1)` for every slice with `stop ≤ start`: for
`slice(3, 3)` on an axis of length 10 the clamped triple is
`(start, stop, step) = (3, 3, 1)` with `stop ≤ start`, yet the result
is `(3, 0, 1)`, not `(0, 0, 1)`. -/
theorem translate_slice_stop_eq_start_counterexample :
    Slice.indices ⟨some 3, some 3, none⟩ 10 = .ok (3, 3, 1) ∧
    translateSlice ⟨some 3, some 3, none⟩ 10 = .ok (3, 0, 1) ∧
    (3, 0, 1) ≠ ((0 : Int), (0 : Int), (1 : Int)) := by
  refine ⟨by decide, by decide, by decide⟩

/-- **C1** (amended).  `_translate_slice` first normalizes the slice by
Python's `slice.indices`; an explicit step of 0 raises from the
normalization itself.  Whenever normalization succeeds: if the
normalized step is `< 1` the step error is raised; otherwise the
normalized start and stop are clamped into `[0, length]`, and the
result is the empty region `(0, 0, 1)` exactly when `stop < start`,
and `(start, 1 + (stop - start - 1) // step, step)` otherwise (a count
of 0 when `stop = start`). -/
theorem translate_slice_characterization (e : Slice) (L : Nat) :
    (e.step = some 0 → translateSlice e L = .error .sliceStepZero) ∧
    (∀ s t p : Int, e.indices L = .ok (s, t, p) →
      (p < 1 → translateSlice e L = .error (.invalidSliceStep p)) ∧
      (1 ≤ p →
        0 ≤ s ∧ s ≤ L ∧ 0 ≤ t ∧ t ≤ L ∧
        translateSlice e L =
          .ok (if t < s then (0, 0, 1) else (s, 1 + (t - s - 1).fdiv p, p)))) := by
  constructor
  · intro h0
    have hind : e.indices L = .error .sliceStepZero := by
      simp only [Slice.indices, h0, Option.getD_some, if_pos]
    unfold translateSlice
    rw [hind]
    rfl
  · intro s t p h
    have hL : (0 : Int) ≤ (L : Int) := Int.ofNat_nonneg L
    simp only [Slice.indices] at h
    by_cases hz : e.step.getD 1 = 0
    · rw [if_pos hz] at h
      exact absurd h (by simp)
    · rw [if_neg hz] at h
      simp only [Except.ok.injEq, Prod.mk.injEq] at h
      obtain ⟨hs, ht, hp⟩ := h
      have hind : e.indices L = .ok (s, t, p) := by
        simp only [Slice.indices]
        rw [if_neg hz, hs, ht, hp]
      constructor
      · intro hlt
        unfold translateSlice
        rw [hind]
        show (if p < 1 then _ else _) = _
        rw [if_pos hlt]
      · intro hp1
        rw [← hp] at hp1
        have hnneg : ¬ (e.step.getD 1 < 0) := by omega
        have hsb : 0 ≤ s ∧ s ≤ L := by
          rw [← hs]
          cases e.start with
          | none => simp only [hnneg, if_false]; omega
          | some v =>
            simp only [hnneg, if_false]
            by_cases hv : v < 0
            · rw [if_pos hv]; constructor <;> [exact le_max_right _ _; omega]
            · rw [if_neg hv]; constructor <;> [omega; exact min_le_right _ _]
        have htb : 0 ≤ t ∧ t ≤ L := by
          rw [← ht]
          cases e.stop with
          | none => simp only [hnneg, if_false]; omega
          | some v =>
            simp only [hnneg, if_false]
            by_cases hv : v < 0
            · rw [if_pos hv]; constructor <;> [exact le_max_right _ _; omega]
            · rw [if_neg hv]; constructor <;> [omega; exact min_le_right _ _]
        rw [hp] at hp1
        refine ⟨hsb.1, hsb.2, htb.1, htb.2, ?_⟩
        unfold translateSlice
        rw [hind]
        show (if p < 1 then _ else if t < s then _ else _) = _
        rw [if_neg (by omega)]
        by_cases hts : t < s
        · rw [if_pos hts, if_pos hts]
        · rw [if_neg hts, if_neg hts]

/-- **C1** (witness).  The characterization applied to `slice(1, 7, 2)`
on length 10, whose normalized triple is `(1, 7, 2)` and whose
translation is `(1, 3, 2)`. -/
theorem translate_slice_characterization_witness :
    translateSlice ⟨some 1, some 7, some 2⟩ 10 = .ok (1, 3, 2) := by
  have h := (translate_slice_characterization ⟨some 1, some 7, some 2⟩ 10).2
    1 7 2 (by decide)
  have h2 := (h.2 (by decide)).2.2.2.2
  rw [h2]
  decide

/-- **C4**.  `MultiBlockSlice.indices(length)`: with `count` given, the
out-of-range error (carrying the offending parameters) is raised
exactly when `start + block + (count - 1) * stride - 1 ≥ length`; with
`count` omitted, the returned count is
`(length - start - block) // stride + 1` and the only possible error
is raised exactly when that value is less than 1. -/
theorem multi_block_slice_indices_characterization
    (m : MultiBlockSlice) (L : Nat) :
    (∀ c, m.count = some c →
      m.indices L =
        if (L : Int) ≤ m.start + m.block + (c - 1) * m.stride - 1 then
          .error (.multiBlockOutOfRange m.start m.stride c m.block L)
        else .ok (m.start, c, m.stride, m.block)) ∧
    (m.count = none → m.Valid →
      m.indices L =
        if ((L : Int) - m.start - m.block).fdiv m.stride + 1 < 1 then
          .error (.noFullBlocks m.start m.stride m.block L)
        else .ok (m.start, ((L : Int) - m.start - m.block).fdiv m.stride + 1,
          m.stride, m.block)) := by
  constructor
  · intro c hc
    simp only [MultiBlockSlice.indices, MultiBlockSlice.checkEnd, hc]
  · intro hc hv
    obtain ⟨_, hstride, _, _, _⟩ := hv
    simp only [MultiBlockSlice.indices, MultiBlockSlice.checkEnd, hc]
    set q := ((L : Int) - m.start - m.block).fdiv m.stride with hq
    by_cases hlt : q + 1 < 1
    · rw [if_pos hlt, if_pos hlt]
    · rw [if_neg hlt, if_neg hlt]
      have hmul : (q + 1 - 1) * m.stride = q * m.stride := by ring
      have hfit : ¬ ((L : Int) ≤ m.start + m.block + (q + 1 - 1) * m.stride - 1) := by
        have hdiv : q * m.stride ≤ (L : Int) - m.start - m.block := by
          rw [hq, Int.fdiv_eq_ediv _ (by omega)]
          exact Int.ediv_mul_le _ (by omega)
        rw [hmul]
        omega
      rw [if_neg hfit]

/-- **C4** (witness).  `MultiBlockSlice(start=2, stride=3, count=2,
block=2)` on length 10 validates to `(2, 2, 3, 2)`; with `count`
omitted on length 10 the maximum fitting count is
`(10 - 2 - 2) // 3 + 1 = 3`. -/
theorem multi_block_slice_indices_witness :
    MultiBlockSlice.indices ⟨2, 3, some 2, 2⟩ 10 = .ok (2, 2, 3, 2) ∧
    MultiBlockSlice.indices ⟨2, 3, none, 2⟩ 10 = .ok (2, 3, 3, 2) := by
  constructor
  · have h := (multi_block_slice_indices_characterization ⟨2, 3, some 2, 2⟩ 10).1
      2 rfl
    rw [h]
    decide
  · have h := (multi_block_slice_indices_characterization ⟨2, 3, none, 2⟩ 10).2
      rfl (by decide)
    rw [h]
    decide

/-- **C10**.  The base (pass-through) `Selection.broadcast` raises
exactly when the element count of the source shape differs from the
number of selected points, and otherwise yields the committed
dataspace exactly once. -/
theorem base_broadcast_characterization (n : Int) (src : List Int) :
    (product src ≠ n → baseBroadcast n src = .error .pointBroadcast) ∧
    (product src = n → baseBroadcast n src = .ok [()]) := by
  constructor
  · intro h
    unfold baseBroadcast
    rw [if_pos h]
  · intro h
    unfold baseBroadcast
    rw [if_neg (by rw [h]; exact fun hc => hc rfl)]

/-- **C10** (witness).  A pass-through selection of 6 points accepts a
`(2, 3)` source array, yielding its region once, and rejects a
`(2, 4)` source array. -/
theorem base_broadcast_witness :
    baseBroadcast 6 [2, 3] = .ok [()] ∧
    baseBroadcast 6 [2, 4] = .error .pointBroadcast := by
  exact ⟨(base_broadcast_characterization 6 [2, 3]).2 (by decide),
         (base_broadcast_characterization 6 [2, 4]).1 (by decide)⟩

/-- Length of the ellipsis-expansion `flatMap`: each non-ellipsis entry
contributes itself, each ellipsis contributes `k` full slices. -/
theorem length_flatMap_expand (l : List IndexArg) (k : Nat) :
    (l.flatMap fun a =>
        if a.isEllipsisArg then List.replicate k fullSlice else [a]).length
      = (l.length - l.countP (·.isEllipsisArg))
        + l.countP (·.isEllipsisArg) * k := by
  induction l with
  | nil => simp
  | cons a l ih =>
    have hle := List.countP_le_length (p := (IndexArg.isEllipsisArg ·)) (l := l)
    by_cases ha : a.isEllipsisArg
    · simp only [List.flatMap_cons, List.length_append, ha, if_true,
        List.length_replicate, ih, List.countP_cons, List.length_cons,
        add_one_mul]
      omega
    · simp only [List.flatMap_cons, List.length_append, ha,
        Bool.false_eq_true, if_false, List.length_cons, ih,
        List.countP_cons, List.length_singleton, List.length_nil,
        Nat.add_zero]
      omega

/-- A list without ellipses is unchanged by the expansion `flatMap`. -/
theorem flatMap_expand_of_no_ellipsis (l : List IndexArg) (k : Nat)
    (h : l.countP (·.isEllipsisArg) = 0) :
    (l.flatMap fun a =>
        if a.isEllipsisArg then List.replicate k fullSlice else [a]) = l := by
  induction l with
  | nil => simp
  | cons a l ih =>
    simp only [List.countP_cons] at h
    by_cases ha : a.isEllipsisArg
    · simp [ha] at h
    · simp only [List.flatMap_cons, ha, Bool.false_eq_true, if_false,
        List.singleton_append, List.cons.injEq]
      exact ⟨trivial, ih (by omega)⟩

/-- Appending an ellipsis to an ellipsis-free list gives ellipsis
count 1. -/
theorem countP_append_ellipsis (args : List IndexArg)
    (h : args.countP (·.isEllipsisArg) = 0) :
    (args ++ [IndexArg.ellipsis]).countP (·.isEllipsisArg) = 1 := by
  rw [List.countP_append, h]
  rfl

/-- **C7**.  `_expand_ellipsis(args, rank)`: more than one ellipsis is
the ellipsis error; with no ellipsis and an argument count different
from the rank an ellipsis is implicitly appended (the call behaves
exactly like the call on `args + (Ellipsis,)`); a single ellipsis
(with the non-ellipsis entries fitting into the rank) expands into
`rank - #non-ellipsis` full-range slices in place; every non-erroring
result has exactly `rank` entries; and, ellipses being at most one,
more non-ellipsis entries than the rank is the too-many-indices
error. -/
theorem expand_ellipsis_characterization (args : List IndexArg) (rank : Nat) :
    (1 < args.countP (·.isEllipsisArg) →
      expandEllipsis args rank = .error .tooManyEllipses) ∧
    (args.countP (·.isEllipsisArg) = 0 → args.length ≠ rank →
      expandEllipsis args rank = expandEllipsis (args ++ [.ellipsis]) rank) ∧
    (∀ res, expandEllipsis args rank = .ok res → res.length = rank) ∧
    (args.countP (·.isEllipsisArg) ≤ 1 →
      rank < args.length - args.countP (·.isEllipsisArg) →
      expandEllipsis args rank = .error .tooManyIndices) ∧
    (∀ pre post, args = pre ++ .ellipsis :: post →
      pre.countP (·.isEllipsisArg) = 0 → post.countP (·.isEllipsisArg) = 0 →
      pre.length + post.length ≤ rank →
      expandEllipsis args rank =
        .ok (pre ++ List.replicate (rank - (pre.length + post.length)) fullSlice
          ++ post)) := by
  refine ⟨?_, ?_, ?_, ?_, ?_⟩
  · intro h
    simp only [expandEllipsis]
    rw [if_pos h]
  · intro h0 hne
    have hc1 := countP_append_ellipsis args h0
    have hpos : (0 : Nat) = 0 ∧ args.length ≠ rank := ⟨rfl, hne⟩
    have hneg : ¬ ((1 : Nat) = 0
        ∧ (args ++ [IndexArg.ellipsis]).length ≠ rank) :=
      fun hcon => absurd hcon.1 (by omega)
    simp only [expandEllipsis]
    rw [h0, hc1]
    rw [if_neg (show ¬ (1 : Nat) < 0 by omega),
        if_neg (show ¬ (1 : Nat) < 1 by omega),
        if_pos hpos, if_neg hneg]
  · intro res hres
    have hle := List.countP_le_length (p := (IndexArg.isEllipsisArg ·)) (l := args)
    simp only [expandEllipsis] at hres
    by_cases h1 : 1 < args.countP (·.isEllipsisArg)
    · rw [if_pos h1] at hres
      exact absurd hres (by simp)
    rw [if_neg h1] at hres
    by_cases hC : args.countP (·.isEllipsisArg) = 0 ∧ args.length ≠ rank
    · rw [if_pos hC] at hres
      have hc1 := countP_append_ellipsis args hC.1
      split at hres
      · exact absurd hres (by simp)
      · rename_i hsmall
        rw [Except.ok.injEq] at hres
        subst hres
        rw [length_flatMap_expand, hc1]
        rw [length_flatMap_expand, hc1] at hsmall
        simp only [List.length_append, List.length_singleton] at hsmall ⊢
        omega
    · rw [if_neg hC] at hres
      split at hres
      · exact absurd hres (by simp)
      · rename_i hsmall
        rw [Except.ok.injEq] at hres
        subst hres
        rw [length_flatMap_expand]
        rw [length_flatMap_expand] at hsmall
        by_cases h0 : args.countP (·.isEllipsisArg) = 0
        · have hrk : args.length = rank := by
            by_contra hne
            exact hC ⟨h0, hne⟩
          rw [h0] at hsmall ⊢
          omega
        · have hone : args.countP (·.isEllipsisArg) = 1 := by omega
          rw [hone] at hsmall ⊢
          omega
  · intro hle1 hbig
    have hle := List.countP_le_length (p := (IndexArg.isEllipsisArg ·)) (l := args)
    simp only [expandEllipsis]
    rw [if_neg (show ¬ 1 < args.countP (·.isEllipsisArg) by omega)]
    by_cases h0 : args.countP (·.isEllipsisArg) = 0
    · have hc1 := countP_append_ellipsis args h0
      rw [if_pos (⟨h0, by omega⟩ : args.countP (·.isEllipsisArg) = 0
        ∧ args.length ≠ rank)]
      split
      · rfl
      · rename_i hsmall
        exfalso
        rw [length_flatMap_expand, hc1] at hsmall
        simp only [List.length_append, List.length_singleton] at hsmall
        omega
    · rw [if_neg (show ¬ (args.countP (·.isEllipsisArg) = 0
        ∧ args.length ≠ rank) from fun hcon => h0 hcon.1)]
      have hone : args.countP (·.isEllipsisArg) = 1 := by omega
      split
      · rfl
      · rename_i hsmall
        exfalso
        rw [length_flatMap_expand, hone] at hsmall
        rw [hone] at hbig
        omega
  · intro pre post hsplit hpre hpost hfit
    have hc1 : args.countP (·.isEllipsisArg) = 1 := by
      rw [hsplit, show pre ++ IndexArg.ellipsis :: post
          = pre ++ [IndexArg.ellipsis] ++ post by simp]
      rw [List.countP_append, List.countP_append, hpre, hpost]
      rfl
    have hlen : args.length = pre.length + post.length + 1 := by
      rw [hsplit]
      simp
      omega
    simp only [expandEllipsis]
    rw [hc1]
    rw [if_neg (show ¬ (1 : Nat) < 1 by omega),
        if_neg (show ¬ ((1 : Nat) = 0 ∧ args.length ≠ rank) from
          fun hcon => by omega)]
    split
    · rename_i hbig
      exfalso
      rw [length_flatMap_expand, hc1, hlen] at hbig
      omega
    · rename_i hsmall
      rw [Except.ok.injEq]
      rw [hsplit, show pre ++ IndexArg.ellipsis :: post
          = pre ++ [IndexArg.ellipsis] ++ post by simp]
      rw [List.flatMap_append, List.flatMap_append,
          flatMap_expand_of_no_ellipsis _ _ hpre,
          flatMap_expand_of_no_ellipsis _ _ hpost]
      simp only [List.flatMap_cons, List.flatMap_nil, List.append_nil]
      rw [show (IndexArg.ellipsis.isEllipsisArg) = true from rfl]
      rw [if_pos rfl]
      rw [show rank + 1 - (pre ++ [IndexArg.ellipsis] ++ post).length
          = rank - (pre.length + post.length) by
        simp
        omega]

/-- **C7** (witness).  `(5, Ellipsis)` over rank 3 expands to
`(5, :, :)`. -/
theorem expand_ellipsis_characterization_witness :
    expandEllipsis [IndexArg.int 5, IndexArg.ellipsis] 3
      = .ok [IndexArg.int 5, fullSlice, fullSlice] := by
  have h := (expand_ellipsis_characterization
      [IndexArg.int 5, IndexArg.ellipsis] 3).2.2.2.2
    [IndexArg.int 5] [] rfl (by decide) (by decide) (by decide)
  rw [h]
  rfl

/-- Destructuring `Except.map` on a successful result. -/
theorem except_map_eq_ok {ε α β : Type} (f : α → β) (x : Except ε α) (b : β)
    (h : x.map f = .ok b) : ∃ a, x = .ok a ∧ b = f a := by
  cases x with
  | ok a =>
    refine ⟨a, rfl, ?_⟩
    simp only [Except.map] at h
    exact (Except.ok.injEq _ _ ▸ h).symm
  | error e => exact absurd h (by simp [Except.map])

/-- The source walk and the specification walk of `expand_shape` agree
on every axis list and every (reversed) source shape. -/
theorem expandShapeAux_eq_spec (axes : List (Int × Int × Bool)) :
    ∀ rem, expandShapeAux axes rem = specExpandShapeAux axes rem := by
  induction axes with
  | nil => intro rem; rfl
  | cons ax axes ih =>
    obtain ⟨m, b, sc⟩ := ax
    intro rem
    cases rem with
    | nil =>
      cases sc
      · simp only [expandShapeAux, specExpandShapeAux, Bool.false_eq_true,
          if_false, ih]
      · simp only [expandShapeAux, specExpandShapeAux, if_true, ih]
    | cons t rem' =>
      cases sc
      · have hiff : (t = 1 ∨ m = t ∨ b = t) ↔ (t = 1 ∨ t = m ∨ t = b) := by
          constructor
          · rintro (h | h | h)
            exacts [Or.inl h, Or.inr (Or.inl h.symm), Or.inr (Or.inr h.symm)]
          · rintro (h | h | h)
            exacts [Or.inl h, Or.inr (Or.inl h.symm), Or.inr (Or.inr h.symm)]
        simp only [expandShapeAux, specExpandShapeAux, Bool.false_eq_true,
          if_false]
        by_cases hc : t = 1 ∨ m = t ∨ b = t
        · rw [if_pos hc, if_pos (hiff.mp hc), ih]
        · rw [if_neg hc, if_neg (fun hcon => hc (hiff.mpr hcon))]
      · simp only [expandShapeAux, specExpandShapeAux, if_true, ih]

/-- A successful `expandShapeAux` run produces one entry per axis. -/
theorem expandShapeAux_length (axes : List (Int × Int × Bool)) :
    ∀ rem res, expandShapeAux axes rem = .ok res →
      res.length = axes.length := by
  induction axes with
  | nil =>
    intro rem res h
    simp only [expandShapeAux] at h
    split at h
    · exact absurd h (by simp)
    · rw [Except.ok.injEq] at h
      rw [← h]
      rfl
  | cons ax axes ih =>
    obtain ⟨m, b, sc⟩ := ax
    intro rem res h
    cases rem with
    | nil =>
      simp only [expandShapeAux] at h
      obtain ⟨r, hr, hres⟩ := except_map_eq_ok _ _ _ h
      rw [hres, List.length_cons, ih [] r hr, List.length_cons]
    | cons t rem' =>
      simp only [expandShapeAux] at h
      by_cases hsc : sc = true
      · rw [if_pos hsc] at h
        obtain ⟨r, hr, hres⟩ := except_map_eq_ok _ _ _ h
        rw [hres, List.length_cons, ih _ r hr, List.length_cons]
      · rw [if_neg hsc] at h
        by_cases hc : t = 1 ∨ m = t ∨ b = t
        · rw [if_pos hc] at h
          obtain ⟨r, hr, hres⟩ := except_map_eq_ok _ _ _ h
          rw [hres, List.length_cons, ih _ r hr, List.length_cons]
        · rw [if_neg hc] at h
          exact absurd h (by simp)

/-- **C3**.  `expand_shape` is exactly the specification's last-to-first
walk (`specExpandShape`, written from the spec's words): scalar axes
consume nothing and contribute 1, non-scalar axes pop the last
remaining source dimension (1 when exhausted) and accept it exactly
when it equals 1, the axis's `mshape` entry, or the axis's block
length, unconsumed leading source dimensions `> 1` are an error — and
every successful result has exactly one entry per selection axis
(the selection's rank `len(mshape)`). -/
theorem expand_shape_spec_walk (st : SimpleSelection) (src : List Int) :
    st.expandShape src = st.specExpandShape src ∧
    (st.blockShape.length = st.mshape.length →
      st.scalar.length = st.mshape.length →
      ∀ res, st.expandShape src = .ok res →
        res.length = st.mshape.length) := by
  constructor
  · simp only [SimpleSelection.expandShape, SimpleSelection.specExpandShape,
      expandShapeAux_eq_spec]
  · intro hb hs res h
    simp only [SimpleSelection.expandShape] at h
    obtain ⟨r, hr, hres⟩ := except_map_eq_ok _ _ _ h
    have hlen := expandShapeAux_length _ _ _ hr
    rw [hres, List.length_reverse, hlen]
    simp only [List.length_zip, List.length_reverse, hb, hs]
    omega

/-- **C3** (witness).  The selection `(10, 5, 4, 2)[..., 0]` has
`mshape = (10, 5, 4, 1)` with a scalar axis at position 3;
`expand_shape((5, 4))` returns `(1, 5, 4, 1)` on both the source walk
and the specification walk, with one entry per selection axis. -/
theorem expand_shape_spec_walk_witness :
    (simpleInit [10, 5, 4, 2]).getitem [.ellipsis, .int 0]
      = .ok ⟨[10, 5, 4, 2], [0, 0, 0, 0], [10, 5, 4, 1], [1, 1, 1, 1],
             [false, false, false, true], [1, 1, 1, 1], [10, 5, 4]⟩ ∧
    SimpleSelection.expandShape
      ⟨[10, 5, 4, 2], [0, 0, 0, 0], [10, 5, 4, 1], [1, 1, 1, 1],
       [false, false, false, true], [1, 1, 1, 1], [10, 5, 4]⟩ [5, 4]
      = .ok [1, 5, 4, 1] ∧
    SimpleSelection.specExpandShape
      ⟨[10, 5, 4, 2], [0, 0, 0, 0], [10, 5, 4, 1], [1, 1, 1, 1],
       [false, false, false, true], [1, 1, 1, 1], [10, 5, 4]⟩ [5, 4]
      = .ok [1, 5, 4, 1] ∧
    ([1, 5, 4, 1] : List Int).length
      = (SimpleSelection.mshape
          ⟨[10, 5, 4, 2], [0, 0, 0, 0], [10, 5, 4, 1], [1, 1, 1, 1],
           [false, false, false, true], [1, 1, 1, 1], [10, 5, 4]⟩).length := by
  refine ⟨by decide, by decide, ?_, ?_⟩
  · rw [← (expand_shape_spec_walk _ [5, 4]).1]
    decide
  · exact (expand_shape_spec_walk _ [5, 4]).2 (by decide) (by decide)
      [1, 5, 4, 1] (by decide)

/-- **C8** (counterexample).  On a rank-0 (scalar) extent the source
only inspects the *first* entry of the index tuple: the index
`(Ellipsis, 5)` is neither the empty tuple nor a bare `Ellipsis`/`()`,
yet it is accepted (and selects the single point) instead of raising. -/
theorem scalar_selection_trailing_args_counterexample :
    (simpleInit []).getitem [.ellipsis, .int 5] = .ok (simpleInit []) ∧
    [IndexArg.ellipsis, IndexArg.int 5] ≠ ([] : List IndexArg) ∧
    [IndexArg.ellipsis, IndexArg.int 5] ≠ [IndexArg.ellipsis] ∧
    [IndexArg.ellipsis, IndexArg.int 5] ≠ [IndexArg.emptyTuple] := by
  refine ⟨by decide, by decide, by decide, by decide⟩

/-- **C8** (amended).  For a `SimpleSelection` over a rank-0 extent,
an index is an error exactly when it is nonempty and its *first*
entry is neither `Ellipsis` nor the empty tuple `()`; otherwise (empty
index, or first entry `Ellipsis`/`()`) the whole single-point extent
is selected: the result is unchanged and its `mshape` has product 1
(one selected point). -/
theorem scalar_selection_characterization (args : List IndexArg) :
    ((args = [] ∨ (∃ rest, args = .ellipsis :: rest) ∨
        (∃ rest, args = .emptyTuple :: rest)) →
      (simpleInit []).getitem args = .ok (simpleInit []) ∧
        product (simpleInit []).mshape = 1) ∧
    (∀ a rest, args = a :: rest → a ≠ .ellipsis → a ≠ .emptyTuple →
      (simpleInit []).getitem args = .error .invalidScalarIndex) := by
  constructor
  · rintro (h | ⟨rest, h⟩ | ⟨rest, h⟩) <;> subst h <;>
      exact ⟨by simp [SimpleSelection.getitem, simpleInit], by decide⟩
  · intro a rest h ha1 ha2
    subst h
    simp only [SimpleSelection.getitem, simpleInit]
    rw [if_pos trivial]
    rw [if_neg (by
      rintro (h | h)
      exacts [ha1 h, ha2 h])]

/-- **C8** (witness).  The empty index and a bare integer index on a
rank-0 extent. -/
theorem scalar_selection_characterization_witness :
    ((simpleInit []).getitem [] = .ok (simpleInit []) ∧
      product (simpleInit []).mshape = 1) ∧
    (simpleInit []).getitem [.int 5] = .error .invalidScalarIndex := by
  exact ⟨(scalar_selection_characterization []).1 (Or.inl rfl),
         (scalar_selection_characterization [.int 5]).2 (.int 5) [] rfl
           (by decide) (by decide)⟩

theorem exOk_bind {ε α β : Type} (a : α) (f : α → Except ε β) :
    (Except.ok a : Except ε α) >>= f = f a := rfl

theorem exErr_bind {ε α β : Type} (e : ε) (f : α → Except ε β) :
    (Except.error e : Except ε α) >>= f = .error e := rfl

/-- The full-range slice on an axis of length `m` selects all of it. -/
theorem translateSlice_full (m : Nat) :
    translateSlice ⟨none, none, none⟩ m = .ok (0, m, 1) := by
  have hind : Slice.indices ⟨none, none, none⟩ m = .ok (0, m, 1) := by
    simp [Slice.indices]
  simp only [translateSlice, hind, exOk_bind]
  rw [if_neg (show ¬ (1 : Int) < 1 by omega)]
  rw [if_neg (show ¬ (m : Int) < 0 by omega)]
  rw [Int.fdiv_one]
  rw [show 1 + ((m : Int) - 0 - 1) = m by ring]

/-- The empty slice `0:0` selects nothing: count 0. -/
theorem translateSlice_empty (n : Nat) :
    translateSlice ⟨some 0, some 0, none⟩ n = .ok (0, 0, 1) := by
  have hind : Slice.indices ⟨some 0, some 0, none⟩ n = .ok (0, 0, 1) := by
    simp [Slice.indices]
  simp only [translateSlice, hind, exOk_bind]
  rw [if_neg (show ¬ (1 : Int) < 1 by omega)]
  rw [if_neg (show ¬ (0 : Int) < 0 by omega)]
  rw [Int.fdiv_one]
  rw [show 1 + ((0 : Int) - 0 - 1) = 0 by ring]

/-- A nonnegative in-range integer index translates to itself. -/
theorem translateInt_ok (y : Int) (n : Nat) (h0 : 0 ≤ y) (h1 : y < n) :
    translateInt y n = .ok (y, 1, 1) := by
  simp only [translateInt]
  rw [if_neg (show ¬ y < 0 by omega)]
  rw [if_pos (show 0 ≤ y ∧ y < (n : Int) from ⟨h0, h1⟩)]

/-- A two-argument, ellipsis-free index over rank 2 is unchanged by
ellipsis expansion. -/
theorem expandEllipsis_pair (a b : IndexArg)
    (hae : a.isEllipsisArg = false) (hbe : b.isEllipsisArg = false) :
    expandEllipsis [a, b] 2 = .ok [a, b] := by
  have hc : ([a, b] : List IndexArg).countP (·.isEllipsisArg) = 0 := by
    simp [List.countP_cons, hae, hbe]
  simp only [expandEllipsis]
  rw [hc]
  rw [if_neg (show ¬ (1 : Nat) < 0 by omega)]
  rw [if_neg (show ¬ ((0 : Nat) = 0 ∧ ([a, b] : List IndexArg).length ≠ 2)
    from fun hcon => hcon.2 rfl)]
  simp [hae, hbe]

/-- `_handle_simple` over a rank-2 shape and two ellipsis-free
arguments just pairs up the per-axis translations. -/
theorem handleSimple_pair (n m : Nat) (a b : IndexArg)
    (sa ca ta bla : Int) (sca : Bool) (sb cb tb blb : Int) (scb : Bool)
    (hae : a.isEllipsisArg = false) (hbe : b.isEllipsisArg = false)
    (ha : handleSimpleArg a n = .ok (sa, ca, ta, bla, sca))
    (hb : handleSimpleArg b m = .ok (sb, cb, tb, blb, scb)) :
    handleSimple [n, m] [a, b]
      = .ok ([sa, sb], [ca, cb], [ta, tb], [bla, blb], [sca, scb]) := by
  simp only [handleSimple]
  rw [show ([n, m] : List Nat).length = 2 from rfl,
    expandEllipsis_pair a b hae hbe, exOk_bind]
  show handleSimpleAux [(a, n), (b, m)] = _
  simp only [handleSimpleAux, ha, hb, exOk_bind]

/-- The source's adjacent-pair test is the (negated) strict-increase
condition of the specification. -/
theorem hasNonMonotonicPair_eq_false_iff (ys : List Int) :
    hasNonMonotonicPair ys = false ↔ List.Chain' (· < ·) ys := by
  induction ys with
  | nil => simp [hasNonMonotonicPair]
  | cons y ys ih =>
    cases ys with
    | nil => simp [hasNonMonotonicPair]
    | cons y2 t =>
      rw [List.chain'_cons, ← ih]
      show ((y, y2) :: (y2 :: t).zip t).any (fun p => p.2 ≤ p.1) = false ↔ _
      rw [List.any_cons]
      simp only [hasNonMonotonicPair, Bool.or_eq_false_iff,
        decide_eq_false_iff_not, not_le]
      rfl

/-- Collecting sequence args from `(seq, b)` with a monotone sequence
and a non-sequence second argument yields the single pair. -/
theorem collectSequenceArgs_seq_pair (i : Nat) (ys : List Int) (b : IndexArg)
    (hmono : hasNonMonotonicPair ys = false) (hbs : b.asSequence = none) :
    collectSequenceArgs i [.seq ys, b] = .ok [(i, ys)] := by
  have h1 : (IndexArg.seq ys).asSequence = some ys := rfl
  simp only [collectSequenceArgs, h1, hmono, Bool.false_eq_true, if_false,
    hbs]
  rfl

/-- The last entry of a mapped nonempty list is the image of one of its
elements. -/
theorem getLastD_map_mem {α β : Type} (f : α → β) :
    ∀ (t : List α) (y : α) (d : β),
      ∃ z, z ∈ y :: t ∧ ((y :: t).map f).getLastD d = f z := by
  intro t
  induction t with
  | nil => exact fun y d => ⟨y, by simp, rfl⟩
  | cons y2 t ih =>
    intro y d
    obtain ⟨z, hz, he⟩ := ih y2 (f y)
    refine ⟨z, by simp only [List.mem_cons] at hz ⊢; tauto, ?_⟩
    rw [List.map_cons, List.getLastD_cons, he]

/-- The union loop of `FancySelection.__getitem__` on the expanded
vector `[(v, b)] for v in ys`: every vector translates to the same
per-axis tuples except for the leading start. -/
theorem mapM_handleSimple_int_pair (n m : Nat) (b : IndexArg)
    (sb cb tb blb : Int) (scb : Bool)
    (hbe : b.isEllipsisArg = false)
    (hb : handleSimpleArg b m = .ok (sb, cb, tb, blb, scb)) :
    ∀ ys : List Int, (∀ y ∈ ys, 0 ≤ y ∧ y < (n : Int)) →
      List.mapM (fun v => handleSimple [n, m] v)
          (ys.map fun v => [IndexArg.int v, b])
        = .ok (ys.map fun y =>
            ([y, sb], [1, cb], [1, tb], [1, blb], [true, scb])) := by
  intro ys
  induction ys with
  | nil => intro _; rfl
  | cons y t ih =>
    intro hr
    simp only [List.map_cons, List.mapM_cons]
    rw [handleSimple_pair n m (.int y) b y 1 1 1 true sb cb tb blb scb
        rfl hbe
        (by
          simp only [handleSimpleArg]
          rw [translateInt_ok y n (hr y (by simp)).1 (hr y (by simp)).2]
          rfl)
        hb]
    rw [exOk_bind, ih (fun z hz => hr z (by simp [hz]))]
    rfl

theorem fancyCommit_mshape (st : FancySelection) (pos : Nat) (xs : List Int)
    (results : List (List Int × List Int × List Int × List Int × List Bool)) :
    (fancyCommit st pos xs results).mshape
      = (fancyMshapeAdj pos xs.length
          (results.getLastD ([], [], [], [], [])).2.1
          (results.getLastD ([], [], [], [], [])).2.2.2.2).map
          (fun x => |x|) := rfl

theorem fancyCommit_arrayShape (st : FancySelection) (pos : Nat)
    (xs : List Int)
    (results : List (List Int × List Int × List Int × List Int × List Bool)) :
    (fancyCommit st pos xs results).arrayShape
      = (fancyMshapeAdj pos xs.length
          (results.getLastD ([], [], [], [], [])).2.1
          (results.getLastD ([], [], [], [], [])).2.2.2.2).filter
          (fun x => 0 ≤ x) := rfl

/-- The mshape adjustment over two axes with the sequence at
position 0. -/
theorem fancyMshapeAdj_two (len : Nat) (c0 c1 : Int) (s0 s1 : Bool) :
    fancyMshapeAdj 0 len [c0, c1] [s0, s1]
      = [(len : Int), if s1 then -1 else c1] := by
  simp only [fancyMshapeAdj]
  rw [show ([c0, c1] : List Int).length = 2 from rfl,
    show List.range 2 = [0, 1] by decide]
  simp [List.getD]

/-- **C5**.  For a `FancySelection` on shape `(n, m)` indexed by a
strictly increasing in-range sequence on axis 0 and any translatable
non-sequence argument on axis 1: the selection succeeds (an empty
sequence is translated through the empty slice `0:0` rather than
erroring), `mshape` keeps the sequence axis at the sequence's length,
and `array_shape` retains the sequence axis (even at length 0) while
dropping the second axis exactly when it is a scalar (integer) axis. -/
theorem fancy_sequence_axis_shape (n m : Nat) (ys : List Int) (b : IndexArg)
    (sb cb tb blb : Int) (scb : Bool)
    (hmono : List.Chain' (· < ·) ys)
    (hrange : ∀ y ∈ ys, 0 ≤ y ∧ y < (n : Int))
    (hbe : b.isEllipsisArg = false) (hbs : b.asSequence = none)
    (hb : handleSimpleArg b m = .ok (sb, cb, tb, blb, scb))
    (hcb : 0 ≤ cb) :
    ∃ st, (fancyInit [n, m]).getitem [.seq ys, b] = .ok st ∧
      st.mshape = [(ys.length : Int), if scb then 1 else cb] ∧
      st.arrayShape = (ys.length : Int) :: (if scb then [] else [cb]) := by
  have hmono' : hasNonMonotonicPair ys = false :=
    (hasNonMonotonicPair_eq_false_iff ys).mpr hmono
  have hexp : expandEllipsis [.seq ys, b] 2 = .ok [.seq ys, b] :=
    expandEllipsis_pair (.seq ys) b rfl hbe
  have hcol := collectSequenceArgs_seq_pair 0 ys b hmono' hbs
  have hfin : (fancyInit [n, m]).getitem [.seq ys, b]
      = ((fancyArgVector [.seq ys, b] 0 ys).mapM
          fun v => handleSimple [n, m] v)
        >>= fun results => .ok (fancyCommit (fancyInit [n, m]) 0 ys results) := by
    simp only [FancySelection.getitem, fancyInit]
    rw [show ([n, m] : List Nat).length = 2 from rfl, hexp, exOk_bind, hcol,
      exOk_bind]
    simp [fancyFinish, fancyInit]
  rw [hfin]
  cases ys with
  | nil =>
    rw [show fancyArgVector [.seq [], b] 0 []
        = [[IndexArg.slc ⟨some 0, some 0, none⟩, b]] by
      simp [fancyArgVector, List.set_cons_zero]]
    rw [show List.mapM (fun v => handleSimple [n, m] v)
          [[IndexArg.slc ⟨some 0, some 0, none⟩, b]]
        = .ok [([0, sb], [0, cb], [1, tb], [1, blb], [false, scb])] by
      rw [List.mapM_cons]
      rw [handleSimple_pair n m (.slc ⟨some 0, some 0, none⟩) b
          0 0 1 1 false sb cb tb blb scb rfl hbe
          (by
            simp only [handleSimpleArg]
            rw [translateSlice_empty n]
            rfl)
          hb]
      rfl]
    rw [exOk_bind]
    refine ⟨_, rfl, ?_, ?_⟩
    · rw [fancyCommit_mshape]
      rw [show (([([(0 : Int), sb], [(0 : Int), cb], [(1 : Int), tb],
            [(1 : Int), blb], [false, scb])] :
          List (List Int × List Int × List Int × List Int × List Bool)).getLastD
            ([], [], [], [], [])).2.1 = [0, cb] from rfl]
      rw [show (([([(0 : Int), sb], [(0 : Int), cb], [(1 : Int), tb],
            [(1 : Int), blb], [false, scb])] :
          List (List Int × List Int × List Int × List Int × List Bool)).getLastD
            ([], [], [], [], [])).2.2.2.2 = [false, scb] from rfl]
      rw [fancyMshapeAdj_two]
      cases scb <;> simp [abs_of_nonneg hcb]
    · rw [fancyCommit_arrayShape]
      rw [show (([([(0 : Int), sb], [(0 : Int), cb], [(1 : Int), tb],
            [(1 : Int), blb], [false, scb])] :
          List (List Int × List Int × List Int × List Int × List Bool)).getLastD
            ([], [], [], [], [])).2.1 = [0, cb] from rfl]
      rw [show (([([(0 : Int), sb], [(0 : Int), cb], [(1 : Int), tb],
            [(1 : Int), blb], [false, scb])] :
          List (List Int × List Int × List Int × List Int × List Bool)).getLastD
            ([], [], [], [], [])).2.2.2.2 = [false, scb] from rfl]
      rw [fancyMshapeAdj_two]
      cases scb <;> simp [List.filter, hcb]
  | cons y t =>
    rw [show fancyArgVector [.seq (y :: t), b] 0 (y :: t)
        = (y :: t).map fun v => [IndexArg.int v, b] by
      simp [fancyArgVector, List.set_cons_zero]]
    rw [mapM_handleSimple_int_pair n m b sb cb tb blb scb hbe hb (y :: t)
      hrange]
    rw [exOk_bind]
    obtain ⟨z, hzmem, hzlast⟩ := getLastD_map_mem
      (fun w => (([w, sb], [(1 : Int), cb], [(1 : Int), tb], [(1 : Int), blb],
        [true, scb]) : List Int × List Int × List Int × List Int × List Bool))
      t y ([], [], [], [], [])
    refine ⟨_, rfl, ?_, ?_⟩
    · rw [fancyCommit_mshape, hzlast]
      rw [show (([z, sb], [(1 : Int), cb], [(1 : Int), tb], [(1 : Int), blb],
          [true, scb]) : List Int × List Int × List Int × List Int ×
            List Bool).2.1 = [1, cb] from rfl]
      rw [show (([z, sb], [(1 : Int), cb], [(1 : Int), tb], [(1 : Int), blb],
          [true, scb]) : List Int × List Int × List Int × List Int ×
            List Bool).2.2.2.2 = [true, scb] from rfl]
      rw [fancyMshapeAdj_two]
      cases scb <;> simp [abs_of_nonneg hcb, Int.abs_natCast] <;> omega
    · rw [fancyCommit_arrayShape, hzlast]
      rw [show (([z, sb], [(1 : Int), cb], [(1 : Int), tb], [(1 : Int), blb],
          [true, scb]) : List Int × List Int × List Int × List Int ×
            List Bool).2.1 = [1, cb] from rfl]
      rw [show (([z, sb], [(1 : Int), cb], [(1 : Int), tb], [(1 : Int), blb],
          [true, scb]) : List Int × List Int × List Int × List Int ×
            List Bool).2.2.2.2 = [true, scb] from rfl]
      rw [fancyMshapeAdj_two]
      have hlen : (0 : Int) ≤ (t.length : Int) + 1 := by omega
      cases scb <;> simp [List.filter, hcb, hlen]

/-- **C5** (witness).  On shape `(10, 10)`: `([1,3,5], :)` gives
`array_shape (3, 10)`; `([], :)` gives `array_shape (0, 10)` with no
error; `([1,3,5], 2)` drops the scalar axis, giving `(3,)`. -/
theorem fancy_sequence_axis_shape_witness :
    ((fancyInit [10, 10]).getitem [.seq [1, 3, 5], fullSlice]).map
        (fun st => st.arrayShape) = .ok [3, 10] ∧
    ((fancyInit [10, 10]).getitem [.seq [], fullSlice]).map
        (fun st => st.arrayShape) = .ok [0, 10] ∧
    ((fancyInit [10, 10]).getitem [.seq [1, 3, 5], .int 2]).map
        (fun st => st.arrayShape) = .ok [3] := by
  refine ⟨?_, ?_, ?_⟩
  · obtain ⟨st, h, _, ha⟩ := fancy_sequence_axis_shape 10 10 [1, 3, 5]
      fullSlice 0 10 1 1 false (by norm_num [List.chain'_cons])
      (by decide) rfl rfl (by decide) (by decide)
    rw [h, Except.map, ha]
    rfl
  · obtain ⟨st, h, _, ha⟩ := fancy_sequence_axis_shape 10 10 []
      fullSlice 0 10 1 1 false (by simp) (by decide) rfl rfl
      (by decide) (by decide)
    rw [h, Except.map, ha]
    rfl
  · obtain ⟨st, h, _, ha⟩ := fancy_sequence_axis_shape 10 10 [1, 3, 5]
      (.int 2) 2 1 1 1 true (by norm_num [List.chain'_cons])
      (by decide) rfl rfl (by decide) (by decide)
    rw [h, Except.map, ha]
    rfl

/-- **C6**.  A `FancySelection` whose sequence argument is not strictly
increasing (some adjacent pair has first ≥ second: decreases and
duplicates both count) raises the non-monotonic-sequence error. -/
theorem fancy_nonmonotonic_raises (n m : Nat) (ys : List Int) (b : IndexArg)
    (hbe : b.isEllipsisArg = false)
    (hmono : ¬ List.Chain' (· < ·) ys) :
    (fancyInit [n, m]).getitem [.seq ys, b] = .error .nonMonotonic := by
  have hz : hasNonMonotonicPair ys = true := by
    rcases Bool.eq_false_or_eq_true (hasNonMonotonicPair ys) with h | h
    · exact h
    · exact absurd ((hasNonMonotonicPair_eq_false_iff ys).mp h) hmono
  have hexp : expandEllipsis [.seq ys, b] 2 = .ok [.seq ys, b] :=
    expandEllipsis_pair (.seq ys) b rfl hbe
  have hcol : collectSequenceArgs 0 [.seq ys, b] = .error .nonMonotonic := by
    have h1 : (IndexArg.seq ys).asSequence = some ys := rfl
    simp only [collectSequenceArgs, h1, hz, if_true]
  simp only [FancySelection.getitem, fancyInit]
  rw [show ([n, m] : List Nat).length = 2 from rfl, hexp, exOk_bind, hcol]
  rfl

/-- **C6** (witness).  `([3, 1], :)` on shape `(10, 10)` raises the
non-monotonic-sequence error. -/
theorem fancy_nonmonotonic_raises_witness :
    (fancyInit [10, 10]).getitem [.seq [3, 1], fullSlice]
      = .error .nonMonotonic :=
  fancy_nonmonotonic_raises 10 10 [3, 1] fullSlice rfl
    (by norm_num [List.chain'_cons])

theorem product_nil : product [] = 1 := rfl

theorem product_cons (d : Int) (ds : List Int) :
    product (d :: ds) = d * product ds := rfl

theorem product_pos (ds : List Int) (h : ∀ d ∈ ds, 0 < d) :
    0 < product ds := by
  induction ds with
  | nil => norm_num [product]
  | cons d ds ih =>
    rw [product_cons]
    exact mul_pos (h d (by simp)) (ih fun x hx => h x (by simp [hx]))

theorem product_nonneg (ds : List Int) (h : ∀ d ∈ ds, 0 ≤ d) :
    0 ≤ product ds := by
  induction ds with
  | nil => norm_num [product]
  | cons d ds ih =>
    rw [product_cons]
    exact mul_nonneg (h d (by simp)) (ih fun x hx => h x (by simp [hx]))

theorem product_eq_zero_of_mem (ds : List Int) (h : (0 : Int) ∈ ds) :
    product ds = 0 := by
  induction ds with
  | nil => simp at h
  | cons d ds ih =>
    rw [product_cons]
    rcases List.mem_cons.mp h with h0 | h0
    · rw [← h0, zero_mul]
    · rw [ih h0, mul_zero]

theorem int_toNat_mul (a b : Int) (ha : 0 ≤ a) (hb : 0 ≤ b) :
    (a * b).toNat = a.toNat * b.toNat := by
  rcases Int.eq_ofNat_of_zero_le ha with ⟨n, rfl⟩
  rcases Int.eq_ofNat_of_zero_le hb with ⟨m, rfl⟩
  rw [← Int.natCast_mul, Int.toNat_natCast, Int.toNat_natCast,
    Int.toNat_natCast]

/-- `range (d * p)` enumerated as a `p`-block per quotient. -/
theorem range_mul_flatMap (d p : Nat) :
    List.range (d * p)
      = (List.range d).flatMap fun q => (List.range p).map fun r => q * p + r := by
  induction d with
  | zero => simp
  | succ d ih =>
    rw [Nat.succ_mul, List.range_add, ih, List.range_succ,
      List.flatMap_append]
    simp

/-- The grid enumeration has exactly `product dims` entries. -/
theorem gridIndices_length (ds : List Int) (h : ∀ d ∈ ds, 0 ≤ d) :
    (gridIndices ds).length = (product ds).toNat := by
  induction ds with
  | nil => simp [gridIndices, product]
  | cons d ds ih =>
    have hd := h d (by simp)
    have hds : ∀ x ∈ ds, 0 ≤ x := fun x hx => h x (by simp [hx])
    simp only [gridIndices, List.length_flatMap, Function.comp_def,
      List.length_map, ih hds]
    rw [List.map_const', List.sum_const_nat, List.length_range,
      product_cons, int_toNat_mul d (product ds) hd (product_nonneg ds hds)]

/-- Dividing out the total grid size: `unravelAux` on `q * product + r`
gives the digits of `r` with quotient `q`. -/
theorem unravelAux_shift (ds : List Int) (h : ∀ d ∈ ds, 0 < d) :
    ∀ q r : Int, 0 ≤ r → r < product ds →
      unravelAux ds (q * product ds + r) = ((unravelAux ds r).1, q) := by
  induction ds with
  | nil =>
    intro q r h0 h1
    rw [product_nil] at h1
    have hr : r = 0 := by omega
    subst hr
    simp [unravelAux, product_nil]
  | cons d ds ih =>
    intro q r h0 h1
    have hd : 0 < d := h d (by simp)
    have hds : ∀ x ∈ ds, 0 < x := fun x hx => h x (by simp [hx])
    have hP : 0 < product ds := product_pos ds hds
    have hr2b : 0 ≤ r % product ds ∧ r % product ds < product ds :=
      ⟨Int.emod_nonneg r (by omega), Int.emod_lt_of_pos r hP⟩
    have hrdec : r = r / product ds * product ds + r % product ds := by
      rw [mul_comm]
      exact (Int.ediv_add_emod r (product ds)).symm
    have hr1b : 0 ≤ r / product ds ∧ r / product ds < d := by
      constructor
      · exact Int.ediv_nonneg h0 (le_of_lt hP)
      · rw [product_cons] at h1
        exact (Int.ediv_lt_iff_lt_mul hP).mpr h1
    have hi : q * product (d :: ds) + r
        = (q * d + r / product ds) * product ds + r % product ds := by
      rw [product_cons]
      nth_rewrite 1 [hrdec]
      ring
    have hRHS : unravelAux ds r
        = ((unravelAux ds (r % product ds)).1, r / product ds) := by
      conv_lhs => rw [hrdec]
      exact ih hds (r / product ds) (r % product ds) hr2b.1 hr2b.2
    simp only [unravelAux]
    rw [hi, ih hds (q * d + r / product ds) (r % product ds) hr2b.1 hr2b.2,
      hRHS]
    have hmod : (q * d + r / product ds).fmod d = r / product ds := by
      rw [Int.fmod_eq_emod _ (by omega)]
      rw [show q * d + r / product ds = r / product ds + d * q by ring]
      rw [Int.add_mul_emod_self_left]
      exact Int.emod_eq_of_lt hr1b.1 hr1b.2
    have hdiv : (q * d + r / product ds).fdiv d = q := by
      rw [Int.fdiv_eq_ediv _ (by omega)]
      rw [show q * d + r / product ds = r / product ds + d * q by ring]
      rw [Int.add_mul_ediv_left _ _ (by omega : d ≠ 0)]
      rw [Int.ediv_eq_zero_of_lt hr1b.1 hr1b.2, zero_add]
    have hmod0 : (r / product ds).fmod d = r / product ds := by
      rw [Int.fmod_eq_emod _ (by omega)]
      exact Int.emod_eq_of_lt hr1b.1 hr1b.2
    show ((q * d + r / product ds).fmod d
          :: (unravelAux ds (r % product ds)).1,
        (q * d + r / product ds).fdiv d)
      = ((r / product ds).fmod d :: (unravelAux ds (r % product ds)).1, q)
    rw [hmod, hdiv, hmod0]

/-- Peeling the leading coordinate off `np.unravel_index`. -/
theorem unravelIndex_cons (d : Int) (ds : List Int)
    (hds : ∀ x ∈ ds, 0 < x) (q r : Int) (hq : 0 ≤ q) (hqd : q < d)
    (hr : 0 ≤ r) (hrP : r < product ds) :
    unravelIndex (d :: ds) (q * product ds + r) = q :: unravelIndex ds r := by
  unfold unravelIndex
  simp only [unravelAux]
  rw [unravelAux_shift ds hds q r hr hrP]
  show q.fmod d :: (unravelAux ds r).1 = _
  rw [Int.fmod_eq_emod _ (by omega), Int.emod_eq_of_lt hq hqd]

/-- `np.unravel_index` applied to `0, 1, ..., product - 1` enumerates
exactly the multi-index grid in last-axis-fastest order. -/
theorem unravel_range_eq_grid (ds : List Int) (h : ∀ d ∈ ds, 0 < d) :
    (List.range (product ds).toNat).map
        (fun (k : Nat) => unravelIndex ds (k : Int)) = gridIndices ds := by
  induction ds with
  | nil => rfl
  | cons d ds ih =>
    have hd := h d (by simp)
    have hds : ∀ x ∈ ds, 0 < x := fun x hx => h x (by simp [hx])
    have hP := product_pos ds hds
    have hPn : ((product ds).toNat : Int) = product ds :=
      Int.toNat_of_nonneg (le_of_lt hP)
    have htoNat : (product (d :: ds)).toNat
        = d.toNat * (product ds).toNat := by
      rw [product_cons]
      exact int_toNat_mul d (product ds) (le_of_lt hd) (le_of_lt hP)
    rw [htoNat, range_mul_flatMap, List.map_flatMap]
    simp only [gridIndices]
    refine List.flatMap_congr fun q hq => ?_
    have hq' : (q : Int) < d := by
      have := List.mem_range.mp hq
      omega
    rw [List.map_map]
    rw [← ih hds]
    rw [List.map_map]
    refine List.map_eq_map_iff.mpr fun r hr => ?_
    have hr' : (r : Int) < product ds := by
      have := List.mem_range.mp hr
      omega
    show unravelIndex (d :: ds) ((q * (product ds).toNat + r : Nat) : Int)
      = (q : Int) :: unravelIndex ds (r : Int)
    rw [show (((q * (product ds).toNat + r : Nat)) : Int)
        = (q : Int) * product ds + (r : Int) by push_cast [hPn]; ring]
    exact unravelIndex_cons d ds hds q r (by omega) hq' (by omega) hr'

/-- Elementwise floor division of nonnegatives by positives is
nonnegative. -/
theorem zipWith_fdiv_nonneg : ∀ (l1 l2 : List Int),
    (∀ x ∈ l1, 0 ≤ x) → (∀ y ∈ l2, 0 < y) →
    ∀ z ∈ List.zipWith Int.fdiv l1 l2, 0 ≤ z := by
  intro l1
  induction l1 with
  | nil => intro l2 _ _ z hz; simp at hz
  | cons x l1 ih =>
    intro l2 h1 h2 z hz
    cases l2 with
    | nil => simp at hz
    | cons y l2 =>
      rw [List.zipWith_cons_cons, List.mem_cons] at hz
      rcases hz with hz | hz
      · subst hz
        rw [Int.fdiv_eq_ediv _ (le_of_lt (h2 y (by simp)))]
        exact Int.ediv_nonneg (h1 x (by simp)) (le_of_lt (h2 y (by simp)))
      · exact ih l2 (fun a ha => h1 a (by simp [ha]))
          (fun a ha => h2 a (by simp [ha])) z hz

/-- **C2**.  `SimpleSelection.broadcast(source_shape)` on a non-scalar
extent, when the source shape passes `expand_shape` with a chunk shape
of positive entries: with `chunks[a] = mshape[a] // chunk_shape[a]`,
the number of yielded descriptors is exactly `product chunks` (the
grid enumeration's length); when that product is 1 the committed
region itself is yielded once, and otherwise the copied descriptor —
re-described as one chunk-shaped block at the selection's stride — is
repositioned to `offset[a] = start[a] + chunk_index[a] * stride[a]`
for every multi-index of the chunk grid taken in last-axis-fastest
order. -/
theorem broadcast_characterization (st : SimpleSelection) (src cs : List Int)
    (hsh : st.shape ≠ [])
    (hcs : st.expandShape src = .ok cs)
    (hpos : ∀ c ∈ cs, 0 < c)
    (hm : ∀ x ∈ st.mshape, 0 ≤ x) :
    (gridIndices (List.zipWith Int.fdiv st.mshape cs)).length
        = (product (List.zipWith Int.fdiv st.mshape cs)).toNat ∧
    st.broadcast src
      = .ok (if product (List.zipWith Int.fdiv st.mshape cs) = 1
          then BroadcastResult.original
          else .chunked cs st.stride
            ((gridIndices (List.zipWith Int.fdiv st.mshape cs)).map fun ci =>
              List.zipWith (· + ·) st.start
                (List.zipWith (· * ·) ci st.stride))) := by
  have hchnn : ∀ z ∈ List.zipWith Int.fdiv st.mshape cs, 0 ≤ z :=
    zipWith_fdiv_nonneg st.mshape cs hm hpos
  constructor
  · exact gridIndices_length _ hchnn
  · simp only [SimpleSelection.broadcast]
    rw [if_neg hsh, hcs, exOk_bind]
    have hany : cs.any (fun c => c = 0) = false := by
      rw [List.any_eq_false]
      intro c hc
      have := hpos c hc
      simp only [decide_eq_true_eq]
      omega
    rw [if_neg (show ¬ cs.any (fun c => c = 0) = true by
      rw [hany]
      simp)]
    by_cases h1 : product (List.zipWith Int.fdiv st.mshape cs) = 1
    · rw [if_pos h1, if_pos h1]
    · rw [if_neg h1, if_neg h1]
      by_cases hall : ∀ c ∈ List.zipWith Int.fdiv st.mshape cs, 0 < c
      · rw [← unravel_range_eq_grid _ hall, List.map_map]
        rfl
      · have hex : ∃ c ∈ List.zipWith Int.fdiv st.mshape cs, c = 0 := by
          push_neg at hall
          obtain ⟨c, hc, hc0⟩ := hall
          exact ⟨c, hc, by have := hchnn c hc; omega⟩
        obtain ⟨c, hc, hc0⟩ := hex
        have hp0 : product (List.zipWith Int.fdiv st.mshape cs) = 0 :=
          product_eq_zero_of_mem _ (hc0 ▸ hc)
        have hg : gridIndices (List.zipWith Int.fdiv st.mshape cs) = [] := by
          have hlen := gridIndices_length _ hchnn
          rw [hp0] at hlen
          exact List.length_eq_zero.mp (by simpa using hlen)
        rw [hp0, hg]
        rfl

/-- **C2** (witness).  The selection `(10, 5)[:, :]` broadcast against
source shape `(5,)` yields exactly 10 chunks, each a `(1, 5)` block at
starts `(0,0), (1,0), ..., (9,0)`; broadcast against `(10, 5)` yields
the committed region itself once. -/
theorem broadcast_characterization_witness :
    SimpleSelection.broadcast
        ⟨[10, 5], [0, 0], [10, 5], [1, 1], [false, false], [1, 1], [10, 5]⟩ [5]
      = .ok (.chunked [1, 5] [1, 1]
          [[0, 0], [1, 0], [2, 0], [3, 0], [4, 0], [5, 0], [6, 0], [7, 0],
           [8, 0], [9, 0]]) ∧
    SimpleSelection.broadcast
        ⟨[10, 5], [0, 0], [10, 5], [1, 1], [false, false], [1, 1], [10, 5]⟩
        [10, 5]
      = .ok .original ∧
    (simpleInit [10, 5]).getitem [fullSlice, fullSlice]
      = .ok ⟨[10, 5], [0, 0], [10, 5], [1, 1], [false, false], [1, 1],
          [10, 5]⟩ := by
  refine ⟨?_, ?_, by decide⟩
  · rw [(broadcast_characterization
      ⟨[10, 5], [0, 0], [10, 5], [1, 1], [false, false], [1, 1], [10, 5]⟩
      [5] [1, 5] (by decide) (by decide) (by decide) (by decide)).2]
    decide
  · rw [(broadcast_characterization
      ⟨[10, 5], [0, 0], [10, 5], [1, 1], [false, false], [1, 1], [10, 5]⟩
      [10, 5] [10, 5] (by decide) (by decide) (by decide) (by decide)).2]
    decide

/-- **C9** (counterexample).  On the union of the two disjoint
rectangles `{(0,0), (1,0)}` and `{(1,1)}` (an L of 3 points), the
masking procedure computes per-axis counts `(3, 1)` whose product *is*
`N = 3`, so `guess_shape` returns `(3, 1)` — not the flat `(3,)` the
claim demands for a two-rectangle union — and `(3, 1)` is a false
rectangular shape: the selected points do not share one axis-1
coordinate. -/
theorem guess_shape_two_rect_counterexample :
    blockPoints [0, 0] [2, 1] ++ blockPoints [1, 1] [1, 1]
      = [[0, 0], [1, 0], [1, 1]] ∧
    (∀ p ∈ blockPoints [0, 0] [2, 1], p ∉ blockPoints [1, 1] [1, 1]) ∧
    guessShapeHyperslab 2 [[0, 0], [1, 0], [1, 1]] = [3, 1] ∧
    ([(3 : Int), 1] : List Int) ≠ [(3 : Int)] ∧
    ¬ (∀ p ∈ ([[0, 0], [1, 0], [1, 1]] : List (List Int)),
        ∀ q ∈ ([[0, 0], [1, 0], [1, 1]] : List (List Int)),
          p.getD 1 0 = q.getD 1 0) := by
  refine ⟨by decide, by decide, by decide, by decide, by decide⟩

/-- **C9** (amended).  Whenever the per-axis counts computed by the
masking procedure do not multiply to the selected-point count `N`,
`guess_shape` falls back to the flat shape `(N,)` instead of the
computed per-axis shape — this covers in particular those unions of
disjoint rectangles whose masking counts fail to factor, such as
`{(0,0)} ∪ {(2,2)}` — but a union of two disjoint rectangles whose
counts do multiply to `N` is reported with the computed per-axis
shape, which may misdescribe the region. -/
theorem guess_shape_fallback (rank : Nat) (pts : List (List Int))
    (hne : pts ≠ [])
    (h : product (axisCounts rank pts) ≠ (pts.length : Int)) :
    guessShapeHyperslab rank pts = [(pts.length : Int)] := by
  simp only [guessShapeHyperslab]
  rw [if_neg (show ¬ pts.length = 0 from fun hcon =>
    hne (List.length_eq_zero.mp hcon))]
  rw [if_pos h]

/-- **C9** (witness).  The union of the two disjoint one-point
rectangles `{(0,0)}` and `{(2,2)}` has masking counts `(2, 2)` with
product `4 ≠ 2`, so the fallback `(2,)` is returned. -/
theorem guess_shape_fallback_witness :
    guessShapeHyperslab 2 [[0, 0], [2, 2]] = [2] ∧
    [[0, 0], [2, 2]] = blockPoints [0, 0] [1, 1] ++ blockPoints [2, 2] [1, 1] := by
  exact ⟨guess_shape_fallback 2 [[0, 0], [2, 2]] (by decide) (by decide),
    by decide⟩

end H5PySel
